import Mathlib

/-!
Shallow embedding of the surrealdb-migrations core: the migration ordering
model, the version-order validator, and the apply orchestrator, together
with the public library entry points from src/src/lib.rs.

The repository ships only src/src/lib.rs (the public API wiring) and a test
file; the internal modules (apply, validate_version_order, surrealdb,
models, ...) are referenced there but their sources are not in the scanned
tree, so their behaviour is modelled from the specification (each such
definition carries a doc comment starting with Modelled from the spec).
Machine state (the target database) is made explicit: every gateway
operation threads a DbState value.
-/

/-- Identity of a migration script, parsed from the filename convention
digits, underscore, digits, underscore, name: the two digit groups form
a sortable timestamp (date, time) and the trailing part is the display
label. Modelled from the spec (section 3, MigrationUnit): the models
module is not in the scanned tree. -/
structure MigIdent where
  date : Nat
  time : Nat
  name : String
deriving DecidableEq, Repr

/-- Sort key realising the total order of the spec: timestamp ascending
(date, then time), display name as tiebreak. -/
def MigIdent.toKey (i : MigIdent) : Nat ×ₗ Nat ×ₗ String :=
  toLex (i.date, toLex (i.time, i.name))

theorem MigIdent.toKey_injective : Function.Injective MigIdent.toKey := by
  intro a b h
  cases a; cases b
  simp only [MigIdent.toKey, toLex_inj, Prod.mk.injEq] at h
  obtain ⟨h1, h2, h3⟩ := h
  simp_all

/-- The total order over migration identities (spec section 4.2). -/
instance : LinearOrder MigIdent := LinearOrder.lift' MigIdent.toKey MigIdent.toKey_injective

/-- Explicit description of the total order: timestamp ascending with the
display name as tiebreak, exactly as the spec words it. -/
theorem MigIdent.le_iff (a b : MigIdent) : a ≤ b ↔
    a.date < b.date ∨ (a.date = b.date ∧
      (a.time < b.time ∨ (a.time = b.time ∧ a.name ≤ b.name))) := by
  have h : (a ≤ b) ↔ (a.toKey ≤ b.toKey) := Iff.rfl
  rw [h]
  cases a; cases b
  simp only [MigIdent.toKey, Prod.Lex.le_iff]

/-- Executable comparator realising the same total order (used by the
executable definitions; equal components are discharged by equality tests
first so that concrete instances evaluate). -/
def identLeB (a b : MigIdent) : Bool :=
  if a.date = b.date then
    if a.time = b.time then
      if a.name = b.name then true else decide (a.name < b.name)
    else decide (a.time < b.time)
  else decide (a.date < b.date)

theorem identLeB_iff (a b : MigIdent) : identLeB a b = true ↔ a ≤ b := by
  rw [MigIdent.le_iff]
  unfold identLeB
  rcases Nat.lt_trichotomy a.date b.date with h | h | h
  · simp_all [Nat.ne_of_lt h]
  · rcases Nat.lt_trichotomy a.time b.time with h2 | h2 | h2
    · simp_all [Nat.ne_of_lt h2]
    · by_cases h3 : a.name = b.name
      · simp_all
      · simp_all [le_iff_lt_or_eq, h3]
    · simp_all [Nat.ne_of_gt h2, Nat.lt_asymm h2]
  · simp_all [Nat.ne_of_gt h, Nat.lt_asymm h]

/-- The ordering relation used by the executable definitions. -/
def identLe (a b : MigIdent) : Prop := identLeB a b = true

instance : DecidableRel identLe := fun a b => inferInstanceAs (Decidable (identLeB a b = true))

theorem identLe_iff (a b : MigIdent) : identLe a b ↔ a ≤ b := identLeB_iff a b

instance : IsTotal MigIdent identLe :=
  ⟨fun a b => by
    rcases le_total a b with h | h
    · exact Or.inl ((identLe_iff a b).mpr h)
    · exact Or.inr ((identLe_iff b a).mpr h)⟩

instance : IsTrans MigIdent identLe :=
  ⟨fun a b c h1 h2 =>
    (identLe_iff a c).mpr (le_trans ((identLe_iff a b).mp h1) ((identLe_iff b c).mp h2))⟩

/-- Full script name of a migration, i.e. its file name
date, underscore, time, underscore, display name. -/
def MigIdent.scriptName (i : MigIdent) : String :=
  toString i.date ++ "_" ++ toString i.time ++ "_" ++ i.name

/-- A schema or event definition file: identity is the table or event name
derived from the filename, body is the opaque script text. Modelled from
the spec (section 3, DefinitionUnit). -/
structure DefinitionUnit where
  name : String
  body : String
deriving DecidableEq, Repr

/-- A migration script: its identity plus the opaque script body.
Modelled from the spec (section 3, MigrationUnit). -/
structure MigrationUnit where
  ident : MigIdent
  body : String
deriving DecidableEq, Repr

/-- Execution record persisted in the target database: the identity of an
applied migration plus the execution timestamp assigned when the gateway
persisted it. Modelled from the spec (section 3, ExecutionRecord). -/
structure ExecutionRecord where
  ident : MigIdent
  executedAt : Nat
deriving DecidableEq, Repr

/-- Result of scanning the project tree (spec section 4.1): schema
definitions, event definitions and migration scripts. -/
structure Project where
  schemas : List DefinitionUnit
  events : List DefinitionUnit
  migrations : List MigrationUnit
deriving DecidableEq, Repr

/-- Explicit model of the target database plus an execution log:
records is the execution-record table, executed is the append-only log of
script bodies the gateway has run (in order), clock supplies strictly
increasing execution timestamps. -/
structure DbState where
  executed : List String
  records : List ExecutionRecord
  clock : Nat
deriving DecidableEq, Repr

/-- Ordering of migration units by the identity order. -/
def migLE (a b : MigrationUnit) : Prop := identLe a.ident b.ident

instance : DecidableRel migLE := fun a b => inferInstanceAs (Decidable (identLe a.ident b.ident))

theorem migLE_iff (a b : MigrationUnit) : migLE a b ↔ a.ident ≤ b.ident := identLe_iff _ _

instance : IsTotal MigrationUnit migLE :=
  ⟨fun a b => by
    rcases le_total a.ident b.ident with h | h
    · exact Or.inl ((migLE_iff a b).mpr h)
    · exact Or.inr ((migLE_iff b a).mpr h)⟩

instance : IsTrans MigrationUnit migLE :=
  ⟨fun a b c h1 h2 =>
    (migLE_iff a c).mpr (le_trans ((migLE_iff a b).mp h1) ((migLE_iff b c).mp h2))⟩

/-- Ordering of execution records by execution timestamp. -/
def recLE (a b : ExecutionRecord) : Prop := a.executedAt ≤ b.executedAt

instance : DecidableRel recLE := fun a b => inferInstanceAs (Decidable (a.executedAt ≤ b.executedAt))

instance : IsTotal ExecutionRecord recLE := ⟨fun a b => Nat.le_total a.executedAt b.executedAt⟩

instance : IsTrans ExecutionRecord recLE := ⟨fun _ _ _ h1 h2 => Nat.le_trans h1 h2⟩

/-- Sort a sequence of migration identities by the total order
(spec section 4.2, sequence_sorted). -/
def sortIdents (l : List MigIdent) : List MigIdent :=
  List.insertionSort identLe l

/-- Sort migration units by the total order on their identities. -/
def sortMigrations (l : List MigrationUnit) : List MigrationUnit :=
  List.insertionSort migLE l

/-- Gateway query listing the execution records ordered by execution time
ascending. Modelled from the spec (section 6,
list_executions; section 4.3 State Reader): the surrealdb module is not in
the scanned tree. -/
def listExecutions (s : DbState) : List ExecutionRecord :=
  List.insertionSort recLE s.records

/-- Identities of the applied migrations, as read by the State Reader. -/
def appliedIdents (s : DbState) : List MigIdent :=
  (listExecutions s).map (·.ident)

/-- Gateway operation running an opaque script body. The oracle execOk
says whether the underlying engine accepts the body; the attempt is
appended to the execution log either way. Modelled from the spec
(section 6, execute_script). -/
def executeScript (execOk : String → Bool) (body : String) (s : DbState) : DbState × Bool :=
  ({ s with executed := s.executed ++ [body] }, execOk body)

/-- Gateway operation persisting an execution record for a migration,
stamped with the next execution timestamp. Modelled from the spec
(section 6, record_execution). -/
def recordExecution (i : MigIdent) (s : DbState) : DbState :=
  { s with records := s.records ++ [⟨i, s.clock⟩], clock := s.clock + 1 }

/-- Last element of a list of identities, if any. -/
def lastIdent : List MigIdent → Option MigIdent
  | [] => none
  | [a] => some a
  | _ :: b :: t => lastIdent (b :: t)

theorem lastIdent_eq_getLast? (l : List MigIdent) : lastIdent l = l.getLast? := by
  match l with
  | [] => rfl
  | [a] => rfl
  | a :: b :: t =>
      rw [List.getLast?_cons_cons]
      exact lastIdent_eq_getLast? (b :: t)

/-- The declared units that sort at or before the maximum applied identity
yet are absent from the applied set; empty when nothing has been applied.
Modelled from the spec (section 4.2, is_gap_free_prefix of the Ordering
Model): the validate_version_order module is not in the scanned tree. -/
def missingMigrations (declared applied : List MigIdent) : List MigIdent :=
  match lastIdent (sortIdents applied) with
  | none => []
  | some maxApplied =>
      (sortIdents declared).filter (fun d => identLeB d maxApplied && decide (d ∉ applied))

/-- Human-readable error naming every missing migration, names in their
declared order. Modelled from the spec (section 4.4). -/
def missingMessage (missing : List MigIdent) : String :=
  "The following migrations have not been applied: " ++
    String.intercalate ", " (missing.map MigIdent.scriptName)

/-- The Version Order Validator over identity sequences: fails exactly
when some declared migration sorting at or before the maximum applied one
has not been applied. Modelled from the spec (sections 4.2 and 4.4): the
validate_version_order module is not in the scanned tree. -/
def validateVersionOrder (declared applied : List MigIdent) : Except String Unit :=
  let missing := missingMigrations declared applied
  if missing.isEmpty then Except.ok () else Except.error (missingMessage missing)

/-- Errors of the Apply Orchestrator (spec section 7). -/
inductive ApplyError where
  | targetNotFound (name : String)
  | definitionFailed (name : String)
  | executionFailed (name : String)
deriving DecidableEq, Repr

/-- Unconditionally run every definition body in order, stopping at the
first failure (spec section 4.5 step 2). Returns the state after the
attempts plus the name of the failing definition, if any. Modelled from
the spec: the apply module is not in the scanned tree. -/
def applyDefinitions (execOk : String → Bool) (defs : List DefinitionUnit) (s : DbState) :
    DbState × Option String :=
  match defs with
  | [] => (s, none)
  | d :: rest =>
      match executeScript execOk d.body s with
      | (s1, true) => applyDefinitions execOk rest s1
      | (s1, false) => (s1, some d.name)

/-- Run the pending migrations strictly in order, recording each success
(unless dry_run) and stopping at the first script failure (spec
section 4.5 step 6). Modelled from the spec: the apply module is not in
the scanned tree. -/
def applyMigrations (execOk : String → Bool) (dry_run : Bool) (pending : List MigrationUnit)
    (s : DbState) : DbState × Except ApplyError Unit :=
  match pending with
  | [] => (s, Except.ok ())
  | m :: rest =>
      match executeScript execOk m.body s with
      | (s1, true) =>
          applyMigrations execOk dry_run rest (if dry_run then s1 else recordExecution m.ident s1)
      | (s1, false) => (s1, Except.error (ApplyError.executionFailed m.ident.scriptName))

/-- The declared migrations whose identity has no execution record, sorted
by the total order (spec section 4.5 step 4). -/
def pendingFor (p : Project) (s : DbState) : List MigrationUnit :=
  (sortMigrations p.migrations).filter (fun m => decide (m.ident ∉ appliedIdents s))

/-- Look up an up_to target by its full script name in the declared
sequence. Modelled from the spec (section 4.5 step 5). -/
def findTarget (migs : List MigrationUnit) (name : String) : Option MigrationUnit :=
  migs.find? (fun m => m.ident.scriptName == name)

/-- The pending migrations truncated to the target when one is given
(spec section 4.5 step 5). -/
def truncatedPending (p : Project) (target : Option MigrationUnit) (s : DbState) :
    List MigrationUnit :=
  match target with
  | some t => (pendingFor p s).filter (fun m => identLeB m.ident t.ident)
  | none => pendingFor p s

/-- Configuration surface consumed from the caller, all fields optional
(src/src/lib.rs and the input module; defaults resolved by the gateway). -/
structure SurrealdbConfiguration where
  url : Option String
  ns : Option String
  db : Option String
  username : Option String
  password : Option String
deriving DecidableEq, Repr

/-- Arguments of the apply operation, mirroring the ApplyArgs struct
built in src/src/lib.rs. -/
structure ApplyArgs where
  up : Option String
  db_configuration : SurrealdbConfiguration
  display_logs : Bool
  dry_run : Bool

/-- The Apply Orchestrator after target resolution: re-apply every schema
then every event definition, compute the pending migrations (truncated to
the target when one is given), then run them in order (spec section 4.5
steps 2 to 6). Modelled from the spec: the apply module is not in the
scanned tree. -/
def applyCore (execOk : String → Bool) (p : Project) (target : Option MigrationUnit)
    (dry_run : Bool) (s : DbState) : DbState × Except ApplyError Unit :=
  match applyDefinitions execOk (p.schemas ++ p.events) s with
  | (s1, some n) => (s1, Except.error (ApplyError.definitionFailed n))
  | (s1, none) => applyMigrations execOk dry_run (truncatedPending p target s1) s1

/-- Entry point of the Apply Orchestrator. When an up_to name is given it
is resolved first and an unknown name fails before any mutation (spec
sections 4.5 step 5 and 7, TargetNotFoundError is checked before any
mutation). Modelled from the spec: the apply module is not in the scanned
tree. -/
def applyMain (execOk : String → Bool) (p : Project) (args : ApplyArgs) (s : DbState) :
    DbState × Except ApplyError Unit :=
  match args.up with
  | some name =>
      match findTarget p.migrations name with
      | none => (s, Except.error (ApplyError.targetNotFound name))
      | some target => applyCore execOk p (some target) args.dry_run s
  | none => applyCore execOk p none args.dry_run s

/-- The Version Order Validator main routine: scan the declared sequence,
read the applied sequence through the State Reader, and run the gap-free
check; the database state is threaded through untouched (read path).
Modelled from the spec (section 4.4): the validate_version_order module is
not in the scanned tree. -/
def validateVersionOrderMain (p : Project) (s : DbState) : DbState × Except String Unit :=
  let declared := p.migrations.map (·.ident)
  let applied := (listExecutions s).map (·.ident)
  (s, validateVersionOrder declared applied)

/-- The main entry point for the library (src/src/lib.rs). -/
structure SurrealdbMigrations where
  db_configuration : SurrealdbConfiguration

/-- Create an instance of SurrealdbConfiguration with default values
(src/src/lib.rs, SurrealdbConfiguration::default). -/
def SurrealdbConfiguration.default : SurrealdbConfiguration :=
  { url := none, ns := none, db := none, username := none, password := none }

/-- Create a new instance of SurrealdbMigrations (src/src/lib.rs). -/
def SurrealdbMigrations.new (c : SurrealdbConfiguration) : SurrealdbMigrations :=
  { db_configuration := c }

/-- Validate the version order of the migrations (src/src/lib.rs,
validate_version_order). -/
def SurrealdbMigrations.validate_version_order (self : SurrealdbMigrations) (p : Project)
    (s : DbState) : DbState × Except String Unit :=
  validateVersionOrderMain p s

/-- Apply schema definitions and apply all migrations (src/src/lib.rs, up):
builds ApplyArgs with up none, display_logs false, dry_run false and calls
the apply entry point. -/
def SurrealdbMigrations.up (self : SurrealdbMigrations) (execOk : String → Bool) (p : Project)
    (s : DbState) : DbState × Except ApplyError Unit :=
  applyMain execOk p
    { up := none, db_configuration := self.db_configuration,
      display_logs := false, dry_run := false } s

/-- Apply schema definitions and all migrations up to and including the
named migration (src/src/lib.rs, up_to): builds ApplyArgs with up some
name, display_logs false, dry_run false and calls the apply entry point. -/
def SurrealdbMigrations.up_to (self : SurrealdbMigrations) (name : String)
    (execOk : String → Bool) (p : Project) (s : DbState) : DbState × Except ApplyError Unit :=
  applyMain execOk p
    { up := some name, db_configuration := self.db_configuration,
      display_logs := false, dry_run := false } s

/-- List script migrations that have been applied to the database
(src/src/lib.rs, list): a direct passthrough of the ordered gateway
query. -/
def SurrealdbMigrations.list (self : SurrealdbMigrations) (s : DbState) :
    List ExecutionRecord :=
  listExecutions s

/-- Sample identities and projects used to instantiate the theorems on
concrete inputs (names follow the blog template of the test suite). -/
def identA : MigIdent := { date := 20230101, time := 120001, name := "AddAdminUser" }

def identB : MigIdent := { date := 20230101, time := 120002, name := "AddPost" }

def identC : MigIdent := { date := 20230101, time := 120003, name := "CommentPost" }

def migA : MigrationUnit := { ident := identA, body := "CREATE admin" }

def migB : MigrationUnit := { ident := identB, body := "CREATE post" }

def migC : MigrationUnit := { ident := identC, body := "CREATE comment" }

def sampleProject : Project :=
  { schemas := [{ name := "post", body := "DEFINE TABLE post" }],
    events := [{ name := "publish_post", body := "DEFINE EVENT publish_post" }],
    migrations := [migA, migB, migC] }

def emptyState : DbState := { executed := [], records := [], clock := 0 }

example : sortIdents [identB, identA] = [identA, identB] := rfl

example : validateVersionOrder [identA, identB] [] = Except.ok () := rfl

example : missingMigrations [identA, identB] [identB] = [identA] := by decide

example : validateVersionOrder [identA, identB] [identB] =
    Except.error "The following migrations have not been applied: 20230101_120001_AddAdminUser" := by
  have h : missingMigrations [identA, identB] [identB] = [identA] := by decide
  simp only [validateVersionOrder, h]
  rfl

theorem identLe_refl (a : MigIdent) : identLe a a := (identLe_iff a a).mpr (le_refl a)

theorem sortIdents_perm (l : List MigIdent) : (sortIdents l).Perm l :=
  List.perm_insertionSort identLe l

theorem sortIdents_sorted (l : List MigIdent) : (sortIdents l).Sorted identLe :=
  List.sorted_insertionSort identLe l

theorem mem_sortIdents {l : List MigIdent} {x : MigIdent} : x ∈ sortIdents l ↔ x ∈ l :=
  (sortIdents_perm l).mem_iff

theorem lastIdent_mem : ∀ {l : List MigIdent} {a : MigIdent}, lastIdent l = some a → a ∈ l
  | [], a, h => by simp [lastIdent] at h
  | [b], a, h => by
      simp only [lastIdent, Option.some.injEq] at h
      simp [h]
  | b :: c :: t, a, h => by
      have h2 : lastIdent (c :: t) = some a := h
      exact List.mem_cons_of_mem b (lastIdent_mem h2)

theorem sorted_last_ge : ∀ {l : List MigIdent}, l.Sorted identLe → ∀ {a : MigIdent},
    lastIdent l = some a → ∀ x ∈ l, identLe x a
  | [], _, a, h => by simp [lastIdent] at h
  | [b], _, a, h => by
      simp only [lastIdent, Option.some.injEq] at h
      intro x hx
      simp only [List.mem_singleton] at hx
      subst hx; subst h
      exact identLe_refl x
  | b :: c :: t, hs, a, h => by
      have h2 : lastIdent (c :: t) = some a := h
      obtain ⟨hb, hs2⟩ := List.pairwise_cons.mp hs
      intro x hx
      rcases List.mem_cons.mp hx with rfl | hx2
      · exact hb a (lastIdent_mem h2)
      · exact sorted_last_ge hs2 h2 x hx2

theorem maxApplied_mem {applied : List MigIdent} {m : MigIdent}
    (h : lastIdent (sortIdents applied) = some m) : m ∈ applied :=
  mem_sortIdents.mp (lastIdent_mem h)

theorem le_maxApplied {applied : List MigIdent} {m x : MigIdent}
    (h : lastIdent (sortIdents applied) = some m) (hx : x ∈ applied) : x ≤ m :=
  (identLe_iff x m).mp
    (sorted_last_ge (sortIdents_sorted applied) h x (mem_sortIdents.mpr hx))

theorem mem_missing_iff {declared applied : List MigIdent} {maxApplied : MigIdent}
    (h : lastIdent (sortIdents applied) = some maxApplied) (d : MigIdent) :
    d ∈ missingMigrations declared applied ↔
      d ∈ declared ∧ d ≤ maxApplied ∧ d ∉ applied := by
  unfold missingMigrations
  rw [h]
  simp only [List.mem_filter, mem_sortIdents, Bool.and_eq_true, decide_eq_true_iff,
    identLeB_iff, and_assoc]

theorem missing_sorted (declared applied : List MigIdent) :
    (missingMigrations declared applied).Sorted identLe := by
  unfold missingMigrations
  cases lastIdent (sortIdents applied) with
  | none => exact List.Pairwise.nil
  | some m => exact (sortIdents_sorted declared).filter _

theorem validate_ok_iff (declared applied : List MigIdent) :
    validateVersionOrder declared applied = Except.ok () ↔
      missingMigrations declared applied = [] := by
  unfold validateVersionOrder
  cases hE : (missingMigrations declared applied).isEmpty with
  | true => simp [List.isEmpty_iff.mp hE]
  | false =>
      have : missingMigrations declared applied ≠ [] := by
        intro hnil
        rw [hnil] at hE
        simp at hE
      simp [hE, this]

theorem validate_error_iff (declared applied : List MigIdent) :
    validateVersionOrder declared applied =
        Except.error (missingMessage (missingMigrations declared applied)) ↔
      missingMigrations declared applied ≠ [] := by
  unfold validateVersionOrder
  cases hE : (missingMigrations declared applied).isEmpty with
  | true => simp [List.isEmpty_iff.mp hE]
  | false =>
      have : missingMigrations declared applied ≠ [] := by
        intro hnil
        rw [hnil] at hE
        simp at hE
      simp [hE, this]

/-- Claim C1: for every declared sequence and applied sequence, if the
applied sequence is empty validate succeeds; otherwise, with maxApplied
the last element of the sorted applied sequence, the missing set is
exactly the declared units whose order is at or before maxApplied and
whose identity is absent from the applied set, and validate fails if and
only if that set is non-empty. -/
theorem validate_version_order_characterization (declared applied : List MigIdent) :
    (applied = [] → validateVersionOrder declared applied = Except.ok ()) ∧
    (∀ maxApplied, lastIdent (sortIdents applied) = some maxApplied →
      ((∀ d, d ∈ missingMigrations declared applied ↔
          d ∈ declared ∧ d ≤ maxApplied ∧ d ∉ applied) ∧
        ((∃ e, validateVersionOrder declared applied = Except.error e) ↔
          missingMigrations declared applied ≠ []))) := by
  constructor
  · rintro rfl
    rfl
  · intro maxApplied h
    refine ⟨mem_missing_iff h, ?_⟩
    constructor
    · rintro ⟨e, he⟩ hnil
      rw [(validate_ok_iff declared applied).mpr hnil] at he
      exact Except.noConfusion he
    · intro hne
      exact ⟨_, (validate_error_iff declared applied).mpr hne⟩

theorem validate_version_order_characterization_witness :
    validateVersionOrder [identA, identB] [] = Except.ok () ∧
    ((∃ e, validateVersionOrder [identA, identB] [identB] = Except.error e) ↔
      missingMigrations [identA, identB] [identB] ≠ []) :=
  ⟨(validate_version_order_characterization [identA, identB] []).1 rfl,
    ((validate_version_order_characterization [identA, identB] [identB]).2 identB
      (by decide)).2⟩

/-- Claim C2: when the declared sequence contains a migration sorting
strictly before the maximum applied migration with no execution record,
validate returns the error naming every such missing migration, in their
declared order, in the stated format. -/
theorem validate_version_order_missing_message (declared applied : List MigIdent)
    (maxApplied d0 : MigIdent)
    (hlast : lastIdent (sortIdents applied) = some maxApplied)
    (hd0 : d0 ∈ declared) (hlt : d0 < maxApplied) (habs : d0 ∉ applied) :
    validateVersionOrder declared applied =
      Except.error ("The following migrations have not been applied: " ++
        String.intercalate ", "
          ((missingMigrations declared applied).map MigIdent.scriptName)) ∧
    (∀ x, x ∈ missingMigrations declared applied ↔
      x ∈ declared ∧ x < maxApplied ∧ x ∉ applied) ∧
    (missingMigrations declared applied).Sorted (· ≤ ·) := by
  have hmax : maxApplied ∈ applied := maxApplied_mem hlast
  have hmem : ∀ x, x ∈ missingMigrations declared applied ↔
      x ∈ declared ∧ x < maxApplied ∧ x ∉ applied := by
    intro x
    rw [mem_missing_iff hlast]
    constructor
    · rintro ⟨h1, h2, h3⟩
      refine ⟨h1, lt_of_le_of_ne h2 ?_, h3⟩
      rintro rfl
      exact h3 hmax
    · rintro ⟨h1, h2, h3⟩
      exact ⟨h1, le_of_lt h2, h3⟩
  have hne : missingMigrations declared applied ≠ [] := by
    intro hnil
    have := (hmem d0).mpr ⟨hd0, hlt, habs⟩
    rw [hnil] at this
    exact List.not_mem_nil d0 this
  refine ⟨(validate_error_iff declared applied).mpr hne, hmem, ?_⟩
  exact ((missing_sorted declared applied).imp (fun h => (identLe_iff _ _).mp h))

theorem validate_version_order_missing_message_witness :
    validateVersionOrder [identA, identB] [identB] =
      Except.error ("The following migrations have not been applied: " ++
        String.intercalate ", "
          ((missingMigrations [identA, identB] [identB]).map MigIdent.scriptName)) :=
  (validate_version_order_missing_message [identA, identB] [identB] identB identA
    (by decide) (by simp) (by decide) (by decide)).1

/-- Claim C4: validate succeeds whenever the sorted applied sequence is an
initial segment of the sorted declared sequence; in particular a strict
initial segment (later declared migrations not yet applied) passes. -/
theorem validate_version_order_ok_on_initial_segment (declared applied : List MigIdent)
    (h : ∃ rest, sortIdents declared = sortIdents applied ++ rest) :
    validateVersionOrder declared applied = Except.ok () := by
  obtain ⟨rest, hsplit⟩ := h
  rw [validate_ok_iff]
  unfold missingMigrations
  cases hlast : lastIdent (sortIdents applied) with
  | none => rfl
  | some maxApplied =>
      rw [List.filter_eq_nil_iff]
      intro d hd
      simp only [Bool.and_eq_true, decide_eq_true_iff, identLeB_iff, not_and]
      intro hdle hdnot
      rw [hsplit] at hd
      rcases List.mem_append.mp hd with hd1 | hd2
      · exact hdnot (mem_sortIdents.mp hd1)
      · have hsorted : (sortIdents applied ++ rest).Sorted identLe := by
          rw [← hsplit]; exact sortIdents_sorted declared
        have hcross := (List.pairwise_append.mp hsorted).2.2
        have hmaxmem : maxApplied ∈ sortIdents applied := lastIdent_mem hlast
        have hge : maxApplied ≤ d := (identLe_iff _ _).mp (hcross maxApplied hmaxmem d hd2)
        have : d = maxApplied := le_antisymm hdle hge
        subst this
        exact hdnot (maxApplied_mem hlast)

theorem validate_version_order_ok_on_initial_segment_witness :
    validateVersionOrder [identA, identB, identC] [identA] = Except.ok () :=
  validate_version_order_ok_on_initial_segment [identA, identB, identC] [identA]
    ⟨[identB, identC], by decide⟩

theorem applyDefinitions_all_ok (execOk : String → Bool) :
    ∀ (defs : List DefinitionUnit) (s : DbState),
      (∀ d ∈ defs, execOk d.body = true) →
      applyDefinitions execOk defs s =
        ({ s with executed := s.executed ++ defs.map (·.body) }, none)
  | [], s, _ => by simp [applyDefinitions]
  | d :: rest, s, h => by
      have hd : execOk d.body = true := h d (List.mem_cons_self d rest)
      have ih := applyDefinitions_all_ok execOk rest
        { s with executed := s.executed ++ [d.body] }
        (fun x hx => h x (List.mem_cons_of_mem d hx))
      have hstep : applyDefinitions execOk (d :: rest) s =
          applyDefinitions execOk rest { s with executed := s.executed ++ [d.body] } := by
        simp [applyDefinitions, executeScript, hd]
      rw [hstep, ih]
      simp

theorem applyMigrations_nil (execOk : String → Bool) (dr : Bool) (s : DbState) :
    applyMigrations execOk dr [] s = (s, Except.ok ()) := rfl

theorem applyMigrations_all_ok (execOk : String → Bool) :
    ∀ (pending : List MigrationUnit) (s : DbState),
      (∀ m ∈ pending, execOk m.body = true) →
      (applyMigrations execOk false pending s).2 = Except.ok () ∧
      (applyMigrations execOk false pending s).1.executed =
        s.executed ++ pending.map (·.body) ∧
      ∃ new, (applyMigrations execOk false pending s).1.records = s.records ++ new ∧
        new.map (·.ident) = pending.map (·.ident)
  | [], s, _ => ⟨rfl, by simp [applyMigrations], ⟨[], by simp [applyMigrations], rfl⟩⟩
  | m :: rest, s, h => by
      have hm : execOk m.body = true := h m (List.mem_cons_self m rest)
      have ih := applyMigrations_all_ok execOk rest
        (recordExecution m.ident { s with executed := s.executed ++ [m.body] })
        (fun x hx => h x (List.mem_cons_of_mem m hx))
      obtain ⟨ih1, ih2, new, ih3, ih4⟩ := ih
      have hstep : applyMigrations execOk false (m :: rest) s =
          applyMigrations execOk false rest
            (recordExecution m.ident { s with executed := s.executed ++ [m.body] }) := by
        simp [applyMigrations, executeScript, hm]
      rw [hstep]
      refine ⟨ih1, ?_, ⟨⟨m.ident, s.clock⟩ :: new, ?_, ?_⟩⟩
      · rw [ih2]; simp [recordExecution]
      · rw [ih3]; simp [recordExecution]
      · simp [ih4]

theorem applyMigrations_stops (execOk : String → Bool) :
    ∀ (good : List MigrationUnit) (bad : MigrationUnit) (rest : List MigrationUnit)
      (s : DbState),
      (∀ m ∈ good, execOk m.body = true) → execOk bad.body = false →
      (applyMigrations execOk false (good ++ bad :: rest) s).2 =
        Except.error (ApplyError.executionFailed bad.ident.scriptName) ∧
      (applyMigrations execOk false (good ++ bad :: rest) s).1.executed =
        s.executed ++ good.map (·.body) ++ [bad.body] ∧
      ∃ new, (applyMigrations execOk false (good ++ bad :: rest) s).1.records =
          s.records ++ new ∧ new.map (·.ident) = good.map (·.ident)
  | [], bad, rest, s, _, hbad => by
      have hstep : applyMigrations execOk false ([] ++ bad :: rest) s =
          ({ s with executed := s.executed ++ [bad.body] },
            Except.error (ApplyError.executionFailed bad.ident.scriptName)) := by
        simp [applyMigrations, executeScript, hbad]
      rw [hstep]
      exact ⟨rfl, by simp, ⟨[], by simp, rfl⟩⟩
  | g :: good, bad, rest, s, hg, hbad => by
      have hm : execOk g.body = true := hg g (List.mem_cons_self g good)
      have ih := applyMigrations_stops execOk good bad rest
        (recordExecution g.ident { s with executed := s.executed ++ [g.body] })
        (fun x hx => hg x (List.mem_cons_of_mem g hx)) hbad
      obtain ⟨ih1, ih2, new, ih3, ih4⟩ := ih
      have hstep : applyMigrations execOk false ((g :: good) ++ bad :: rest) s =
          applyMigrations execOk false (good ++ bad :: rest)
            (recordExecution g.ident { s with executed := s.executed ++ [g.body] }) := by
        simp [applyMigrations, executeScript, hm]
      rw [hstep]
      refine ⟨ih1, ?_, ⟨⟨g.ident, s.clock⟩ :: new, ?_, ?_⟩⟩
      · rw [ih2]; simp [recordExecution]
      · rw [ih3]; simp [recordExecution]
      · simp [ih4]

theorem sortMigrations_perm (l : List MigrationUnit) : (sortMigrations l).Perm l :=
  List.perm_insertionSort migLE l

theorem listExecutions_perm (s : DbState) : (listExecutions s).Perm s.records :=
  List.perm_insertionSort recLE s.records

theorem mem_appliedIdents {s : DbState} {i : MigIdent} :
    i ∈ appliedIdents s ↔ i ∈ s.records.map (·.ident) :=
  ((listExecutions_perm s).map (·.ident)).mem_iff

theorem mem_pendingFor {p : Project} {s : DbState} {m : MigrationUnit} :
    m ∈ pendingFor p s ↔ m ∈ p.migrations ∧ m.ident ∉ appliedIdents s := by
  unfold pendingFor
  simp [List.mem_filter, (sortMigrations_perm p.migrations).mem_iff]

theorem pendingFor_exec_update (p : Project) (s : DbState) (e : List String) :
    pendingFor p { s with executed := e } = pendingFor p s := rfl

theorem applyCore_defs_ok (execOk : String → Bool) (p : Project)
    (target : Option MigrationUnit) (dr : Bool) (s : DbState)
    (hdefs : ∀ d ∈ p.schemas ++ p.events, execOk d.body = true) :
    applyCore execOk p target dr s =
      applyMigrations execOk dr (truncatedPending p target s)
        { s with executed := s.executed ++ (p.schemas ++ p.events).map (·.body) } := by
  unfold applyCore
  rw [applyDefinitions_all_ok execOk _ s hdefs]
  cases target <;> rfl

theorem applyMain_up_some (execOk : String → Bool) (p : Project)
    (cfg : SurrealdbConfiguration) (dl dr : Bool) (s : DbState) (name : String) :
    applyMain execOk p
        { up := some name, db_configuration := cfg, display_logs := dl, dry_run := dr } s =
      (match findTarget p.migrations name with
        | none => (s, Except.error (ApplyError.targetNotFound name))
        | some t => applyCore execOk p (some t) dr s) := rfl

theorem applyMain_up_none (execOk : String → Bool) (p : Project)
    (cfg : SurrealdbConfiguration) (dl dr : Bool) (s : DbState) :
    applyMain execOk p
        { up := none, db_configuration := cfg, display_logs := dl, dry_run := dr } s =
      applyCore execOk p none dr s := rfl

/-- Claim C3: applying with an up_to target X present in the declared
sequence applies all schema and event definitions, applies every pending
migration whose order is at or below the order of X, and applies no
migration whose order is strictly above it, even when such later
migrations exist on disk. -/
theorem up_to_applies_all_at_or_before_target (execOk : String → Bool) (p : Project)
    (cfg : SurrealdbConfiguration) (dl : Bool) (s : DbState) (X : MigrationUnit)
    (hfind : findTarget p.migrations X.ident.scriptName = some X)
    (hok : ∀ b, execOk b = true) :
    (applyMain execOk p
        { up := some X.ident.scriptName, db_configuration := cfg,
          display_logs := dl, dry_run := false } s).2 = Except.ok () ∧
    (applyMain execOk p
        { up := some X.ident.scriptName, db_configuration := cfg,
          display_logs := dl, dry_run := false } s).1.executed =
      s.executed ++ (p.schemas ++ p.events).map (·.body) ++
        ((pendingFor p s).filter (fun m => identLeB m.ident X.ident)).map (·.body) ∧
    (∀ m ∈ pendingFor p s, m.ident ≤ X.ident →
      m.ident ∈ ((applyMain execOk p
        { up := some X.ident.scriptName, db_configuration := cfg,
          display_logs := dl, dry_run := false } s).1.records.map (·.ident))) ∧
    (∀ j : MigIdent, ¬ j ≤ X.ident →
      (j ∈ ((applyMain execOk p
          { up := some X.ident.scriptName, db_configuration := cfg,
            display_logs := dl, dry_run := false } s).1.records.map (·.ident)) ↔
        j ∈ s.records.map (·.ident))) := by
  have hrun : applyMain execOk p
      { up := some X.ident.scriptName, db_configuration := cfg,
        display_logs := dl, dry_run := false } s =
      applyMigrations execOk false
        ((pendingFor p s).filter (fun m => identLeB m.ident X.ident))
        { s with executed := s.executed ++ (p.schemas ++ p.events).map (·.body) } := by
    rw [applyMain_up_some, hfind]
    exact applyCore_defs_ok execOk p (some X) false s (fun d _ => hok d.body)
  obtain ⟨h1, h2, new, h3, h4⟩ := applyMigrations_all_ok execOk
    ((pendingFor p s).filter (fun m => identLeB m.ident X.ident))
    { s with executed := s.executed ++ (p.schemas ++ p.events).map (·.body) }
    (fun m _ => hok m.body)
  rw [hrun]
  refine ⟨h1, by rw [h2], ?_, ?_⟩
  · intro m hm hle
    rw [h3]
    simp only [List.map_append, List.mem_append, h4]
    right
    refine List.mem_map_of_mem (·.ident) (List.mem_filter.mpr ⟨hm, ?_⟩)
    exact (identLeB_iff m.ident X.ident).mpr hle
  · intro j hj
    rw [h3]
    simp only [List.map_append, List.mem_append, h4]
    constructor
    · rintro (h | h)
      · exact h
      · exfalso
        obtain ⟨m, hm, rfl⟩ := List.mem_map.mp h
        exact hj ((identLeB_iff m.ident X.ident).mp (List.mem_filter.mp hm).2)
    · exact Or.inl

theorem up_to_applies_all_at_or_before_target_witness :
    (applyMain (fun _ => true) sampleProject
        { up := some identB.scriptName, db_configuration := SurrealdbConfiguration.default,
          display_logs := false, dry_run := false } emptyState).2 = Except.ok () ∧
    (applyMain (fun _ => true) sampleProject
        { up := some identB.scriptName, db_configuration := SurrealdbConfiguration.default,
          display_logs := false, dry_run := false } emptyState).1.executed =
      emptyState.executed ++
        (sampleProject.schemas ++ sampleProject.events).map (·.body) ++
        ((pendingFor sampleProject emptyState).filter
          (fun m => identLeB m.ident identB)).map (·.body) := by
  have h := up_to_applies_all_at_or_before_target (fun _ => true) sampleProject
    SurrealdbConfiguration.default false emptyState migB (by rfl) (fun _ => rfl)
  exact ⟨h.1, h.2.1⟩

/-- Claim C7: an up_to name absent from the declared sequence fails with
the target-not-found error and the database state is returned untouched:
no definition applied, no migration executed, no record written. -/
theorem up_to_unknown_target_no_mutation (cfg : SurrealdbConfiguration)
    (execOk : String → Bool) (p : Project) (s : DbState) (name : String)
    (h : ∀ m ∈ p.migrations, m.ident.scriptName ≠ name) :
    (SurrealdbMigrations.new cfg).up_to name execOk p s =
      (s, Except.error (ApplyError.targetNotFound name)) := by
  have hfind : findTarget p.migrations name = none := by
    unfold findTarget
    rw [List.find?_eq_none]
    intro m hm
    simp only [beq_iff_eq]
    exact h m hm
  show applyMain execOk p
      { up := some name, db_configuration := cfg, display_logs := false, dry_run := false } s =
    (s, Except.error (ApplyError.targetNotFound name))
  rw [applyMain_up_some, hfind]

theorem up_to_unknown_target_no_mutation_witness :
    (SurrealdbMigrations.new SurrealdbConfiguration.default).up_to "20990101_115959_Missing"
        (fun _ => true) sampleProject emptyState =
      (emptyState, Except.error (ApplyError.targetNotFound "20990101_115959_Missing")) :=
  up_to_unknown_target_no_mutation SurrealdbConfiguration.default (fun _ => true)
    sampleProject emptyState "20990101_115959_Missing" (by decide)

/-- Claim C5: pending migrations run strictly in order and the run stops
at the first failing script: the failing migration is attempted but not
recorded, nothing after it is executed or recorded, nothing is retried or
reordered, and the previously stored execution records are preserved
unchanged, with exactly the succeeded prefix newly recorded. -/
theorem apply_stops_at_first_failing_migration (execOk : String → Bool) (p : Project)
    (cfg : SurrealdbConfiguration) (dl : Bool) (s : DbState)
    (good : List MigrationUnit) (bad : MigrationUnit) (rest : List MigrationUnit)
    (hpend : pendingFor p s = good ++ bad :: rest)
    (hdefs : ∀ d ∈ p.schemas ++ p.events, execOk d.body = true)
    (hgood : ∀ m ∈ good, execOk m.body = true)
    (hbad : execOk bad.body = false) :
    (applyMain execOk p
        { up := none, db_configuration := cfg, display_logs := dl, dry_run := false } s).2 =
      Except.error (ApplyError.executionFailed bad.ident.scriptName) ∧
    (applyMain execOk p
        { up := none, db_configuration := cfg, display_logs := dl, dry_run := false } s).1.executed =
      s.executed ++ (p.schemas ++ p.events).map (·.body) ++ good.map (·.body) ++ [bad.body] ∧
    ∃ new, (applyMain execOk p
        { up := none, db_configuration := cfg, display_logs := dl, dry_run := false } s).1.records =
        s.records ++ new ∧ new.map (·.ident) = good.map (·.ident) := by
  have hrun : applyMain execOk p
      { up := none, db_configuration := cfg, display_logs := dl, dry_run := false } s =
      applyMigrations execOk false (good ++ bad :: rest)
        { s with executed := s.executed ++ (p.schemas ++ p.events).map (·.body) } := by
    rw [applyMain_up_none, applyCore_defs_ok execOk p none false s hdefs]
    show applyMigrations execOk false (pendingFor p s) _ = _
    rw [hpend]
  obtain ⟨h1, h2, new, h3, h4⟩ := applyMigrations_stops execOk good bad rest
    { s with executed := s.executed ++ (p.schemas ++ p.events).map (·.body) } hgood hbad
  rw [hrun]
  refine ⟨h1, ?_, new, ?_, h4⟩
  · rw [h2]
  · rw [h3]

theorem apply_stops_at_first_failing_migration_witness :
    (applyMain (fun b => !(b == "CREATE post")) sampleProject
        { up := none, db_configuration := SurrealdbConfiguration.default,
          display_logs := false, dry_run := false } emptyState).2 =
      Except.error (ApplyError.executionFailed identB.scriptName) ∧
    (applyMain (fun b => !(b == "CREATE post")) sampleProject
        { up := none, db_configuration := SurrealdbConfiguration.default,
          display_logs := false, dry_run := false } emptyState).1.executed =
      emptyState.executed ++
        (sampleProject.schemas ++ sampleProject.events).map (·.body) ++
        [migA].map (·.body) ++ ["CREATE post"] := by
  have h := apply_stops_at_first_failing_migration (fun b => !(b == "CREATE post"))
    sampleProject SurrealdbConfiguration.default false emptyState
    [migA] migB [migC] (by decide) (by decide) (by decide) (by decide)
  exact ⟨h.1, h.2.1⟩

theorem up_run_eq (execOk : String → Bool) (cfg : SurrealdbConfiguration) (p : Project)
    (s : DbState) (hdefs : ∀ d ∈ p.schemas ++ p.events, execOk d.body = true) :
    (SurrealdbMigrations.new cfg).up execOk p s =
      applyMigrations execOk false (pendingFor p s)
        { s with executed := s.executed ++ (p.schemas ++ p.events).map (·.body) } := by
  show applyMain execOk p
      { up := none, db_configuration := cfg, display_logs := false, dry_run := false } s = _
  rw [applyMain_up_none, applyCore_defs_ok execOk p none false s hdefs]
  rfl

/-- Claim C6: with every script accepted by the engine, calling up twice
in a row with no new files applies zero new migrations on the second call
(after the first call every declared migration has an execution record, so
the pending set is empty and the record table is unchanged) while the
schema and event definitions are re-executed by both calls. -/
theorem up_twice_idempotent (execOk : String → Bool) (cfg : SurrealdbConfiguration)
    (p : Project) (s : DbState) (hok : ∀ b, execOk b = true) :
    ((SurrealdbMigrations.new cfg).up execOk p s).2 = Except.ok () ∧
    ((SurrealdbMigrations.new cfg).up execOk p
        ((SurrealdbMigrations.new cfg).up execOk p s).1).2 = Except.ok () ∧
    pendingFor p ((SurrealdbMigrations.new cfg).up execOk p s).1 = [] ∧
    ((SurrealdbMigrations.new cfg).up execOk p
        ((SurrealdbMigrations.new cfg).up execOk p s).1).1.records =
      ((SurrealdbMigrations.new cfg).up execOk p s).1.records ∧
    ((SurrealdbMigrations.new cfg).up execOk p s).1.executed =
      s.executed ++ (p.schemas ++ p.events).map (·.body) ++
        (pendingFor p s).map (·.body) ∧
    ((SurrealdbMigrations.new cfg).up execOk p
        ((SurrealdbMigrations.new cfg).up execOk p s).1).1.executed =
      ((SurrealdbMigrations.new cfg).up execOk p s).1.executed ++
        (p.schemas ++ p.events).map (·.body) := by
  have hdefs : ∀ d ∈ p.schemas ++ p.events, execOk d.body = true := fun d _ => hok d.body
  have h1run := up_run_eq execOk cfg p s hdefs
  obtain ⟨a1, a2, new, a3, a4⟩ := applyMigrations_all_ok execOk (pendingFor p s)
    { s with executed := s.executed ++ (p.schemas ++ p.events).map (·.body) }
    (fun m _ => hok m.body)
  have hrec : ∀ m ∈ p.migrations,
      m.ident ∈ ((SurrealdbMigrations.new cfg).up execOk p s).1.records.map (·.ident) := by
    intro m hm
    rw [h1run, a3]
    simp only [List.map_append, List.mem_append, a4]
    by_cases hmem : m.ident ∈ appliedIdents s
    · exact Or.inl (mem_appliedIdents.mp hmem)
    · exact Or.inr (List.mem_map_of_mem (·.ident) (mem_pendingFor.mpr ⟨hm, hmem⟩))
  have hpend2 : pendingFor p ((SurrealdbMigrations.new cfg).up execOk p s).1 = [] := by
    unfold pendingFor
    rw [List.filter_eq_nil_iff]
    intro m hm
    simp only [decide_eq_true_eq, not_not, mem_appliedIdents]
    exact hrec m ((sortMigrations_perm p.migrations).mem_iff.mp hm)
  have h2run := up_run_eq execOk cfg p ((SurrealdbMigrations.new cfg).up execOk p s).1 hdefs
  rw [hpend2, applyMigrations_nil] at h2run
  refine ⟨by rw [h1run]; exact a1, by rw [h2run], hpend2, by rw [h2run], ?_, by rw [h2run]⟩
  rw [h1run, a2]

theorem up_twice_idempotent_witness :
    pendingFor sampleProject
        ((SurrealdbMigrations.new SurrealdbConfiguration.default).up (fun _ => true)
          sampleProject emptyState).1 = [] ∧
    ((SurrealdbMigrations.new SurrealdbConfiguration.default).up (fun _ => true) sampleProject
        ((SurrealdbMigrations.new SurrealdbConfiguration.default).up (fun _ => true)
          sampleProject emptyState).1).1.records =
      ((SurrealdbMigrations.new SurrealdbConfiguration.default).up (fun _ => true)
        sampleProject emptyState).1.records := by
  have h := up_twice_idempotent (fun _ => true) SurrealdbConfiguration.default sampleProject
    emptyState (fun _ => rfl)
  exact ⟨h.2.2.1, h.2.2.2.1⟩

/-- Claim C8: list returns the execution records ordered by execution
timestamp ascending; when the record table already lists the migrations in
the order they were actually applied (execution timestamps ascending),
list returns exactly that order, which need not be the declared order. -/
theorem list_ordered_by_execution_date (cfg : SurrealdbConfiguration) (s : DbState) :
    ((SurrealdbMigrations.new cfg).list s).Sorted recLE ∧
    ((SurrealdbMigrations.new cfg).list s).Perm s.records ∧
    (s.records.Sorted recLE → (SurrealdbMigrations.new cfg).list s = s.records) :=
  ⟨List.sorted_insertionSort recLE s.records, listExecutions_perm s,
    fun hs => hs.insertionSort_eq⟩

theorem list_ordered_by_execution_date_witness :
    (SurrealdbMigrations.new SurrealdbConfiguration.default).list
        { executed := [], records := [⟨identB, 0⟩, ⟨identA, 1⟩], clock := 2 } =
      [⟨identB, 0⟩, ⟨identA, 1⟩] :=
  (list_ordered_by_execution_date SurrealdbConfiguration.default
    { executed := [], records := [⟨identB, 0⟩, ⟨identA, 1⟩], clock := 2 }).2.2 (by decide)

/-- Claim C9: validate_version_order never mutates the database state:
the state it returns is exactly the state it was given, so the call is
safe to repeat and to run before every apply. -/
theorem validate_version_order_no_mutation (cfg : SurrealdbConfiguration) (p : Project)
    (s : DbState) :
    ((SurrealdbMigrations.new cfg).validate_version_order p s).1 = s := rfl

/-- Claim C10: the library entry points never perform a dry run: up calls
the apply orchestrator with no target, dry_run false and display_logs
false, and up_to calls it with the named target, dry_run false and
display_logs false, so the two wrappers differ only in the target
argument. -/
theorem up_and_up_to_invoke_apply_without_dry_run (cfg : SurrealdbConfiguration)
    (execOk : String → Bool) (p : Project) (s : DbState) (name : String) :
    (SurrealdbMigrations.new cfg).up execOk p s =
      applyMain execOk p
        { up := none, db_configuration := cfg, display_logs := false, dry_run := false } s ∧
    (SurrealdbMigrations.new cfg).up_to name execOk p s =
      applyMain execOk p
        { up := some name, db_configuration := cfg, display_logs := false,
          dry_run := false } s :=
  ⟨rfl, rfl⟩
